import Mathlib

/-!
# Verification of `powertoys_text_to_speech`

A shallow embedding, over `List Char`, of the three source files of the
repository `powertoys_text_to_speech` (main module
`src/powertoys_text_to_speech_edge.py`, companion script `src/voice_test.py`).
Strings are modelled as `List Char`; the Windows clipboard and the SAPI COM
objects are modelled as explicit environments (a list of poll outcomes, a flag
record saying which COM calls raise).  Whitespace is modelled by the ASCII
whitespace class used by Python's `str.strip` and the regex class `\s`
on ASCII text: space, tab, LF, CR, vertical tab, form feed.
-/

namespace PTTS

/-- The ASCII whitespace class: the characters matched by Python's `\s`
(and stripped by `str.strip`) on ASCII text. -/
def isWS (c : Char) : Bool :=
  c == ' ' || c == '\t' || c == '\n' || c == '\r' ||
  c == Char.ofNat 11 || c == Char.ofNat 12

/-- Config constant `MIN_CHARS_TO_SPEAK = 3`. -/
def MIN_CHARS_TO_SPEAK : Nat := 3

/-- Config constant `NATURAL_MATCH_SUBSTR = "natural"`. -/
def NATURAL_MATCH_SUBSTR : List Char := "natural".toList

/-- `leadsWith n h` is true when the list `n` is an initial segment of `h`
(used to model Python's substring operator). -/
def leadsWith : List Char → List Char → Bool
  | [], _ => true
  | _ :: _, [] => false
  | a :: as, b :: bs => a == b && leadsWith as bs

/-- `containsSub n h` models Python's `n in h` on strings: `n` occurs as a
contiguous substring of `h`. -/
def containsSub (needle hay : List Char) : Bool :=
  leadsWith needle hay ||
    match hay with
    | [] => false
    | _ :: t => containsSub needle t

/-- Python's `str.lower` on our character lists. -/
def toLowerL (s : List Char) : List Char := s.map Char.toLower

/-! ## Clipboard reading (`get_clipboard_text`, lines 27–43)

One clipboard poll can raise inside the `try` (modelled by `fail`), find no
`CF_UNICODETEXT` content (`noText`), or produce a string.  The function's
`except Exception: text = None` turns the first case into `none`; the source
never lets an exception escape. -/

/-- Outcome of one attempt to open and read the Windows clipboard. -/
inductive ClipRead where
  | fail : ClipRead
  | noText : ClipRead
  | text : List Char → ClipRead
deriving DecidableEq, Repr

/-- `get_clipboard_text` (lines 27–43): a raising read or a clipboard without
text content both yield `none`; otherwise the clipboard string is returned. -/
def get_clipboard_text : ClipRead → Option (List Char)
  | ClipRead.fail => none
  | ClipRead.noText => none
  | ClipRead.text s => some s

/-- `wait_for_clip_change` (lines 57–65), with the real-time poll loop
discretised: the list holds the successive clipboard-poll outcomes that fit
inside the timeout window, and exhausting it is the timeout (`None`).
`if current and current != baseline` requires a non-`None`, non-empty value
different from the baseline. -/
def wait_for_clip_change (baseline : List Char) : List ClipRead → Option (List Char)
  | [] => none
  | r :: rest =>
    match get_clipboard_text r with
    | some c => if c ≠ [] ∧ c ≠ baseline then some c else wait_for_clip_change baseline rest
    | none => wait_for_clip_change baseline rest

/-- A poll outcome that makes `wait_for_clip_change` return: it reads a
string that is non-empty and differs from the baseline. -/
def goodRead (baseline : List Char) (r : ClipRead) : Bool :=
  match get_clipboard_text r with
  | some c => !(c == []) && !(c == baseline)
  | none => false

/-! ## Text normalisation (`tidy_text`, lines 46–54) -/

/-- Python `s.strip()`: drop the whitespace prefix, then the whitespace
suffix (via reversal). -/
def strip (s : List Char) : List Char :=
  (((s.dropWhile isWS).reverse.dropWhile isWS)).reverse

/-- `s.replace("\r\n", " ")`: left-to-right, non-overlapping replacement of
the two-character sequence CR LF by one space. -/
def replaceCRLF : List Char → List Char
  | [] => []
  | [c] => [c]
  | a :: b :: rest =>
    if a = '\r' ∧ b = '\n' then ' ' :: replaceCRLF rest
    else a :: replaceCRLF (b :: rest)

/-- `s.replace("\n", " ")` character map. -/
def replNL (c : Char) : Char := if c = '\n' then ' ' else c

/-- `s.replace("\r", " ")` character map. -/
def replCR (c : Char) : Char := if c = '\r' then ' ' else c

/-- State of the left-to-right scan modelling `re.sub(r"\s{2,}", " ", s)`:
either no whitespace is pending, or exactly one whitespace character `w` has
been seen and not yet emitted, or we are inside a run of length ≥ 2 whose
single replacement space has already been emitted. -/
inductive WSState where
  | clear : WSState
  | pending : Char → WSState
  | inRun : WSState
deriving DecidableEq, Repr

/-- The scan for `re.sub(r"\s{2,}", " ", s)`: every maximal run of two or
more whitespace characters becomes one space, a lone whitespace character is
kept unchanged, every other character is copied. -/
def collapseAux : WSState → List Char → List Char
  | WSState.clear, [] => []
  | WSState.pending w, [] => [w]
  | WSState.inRun, [] => []
  | WSState.clear, c :: rest =>
    if isWS c then collapseAux (WSState.pending c) rest else c :: collapseAux WSState.clear rest
  | WSState.pending w, c :: rest =>
    if isWS c then ' ' :: collapseAux WSState.inRun rest
    else w :: c :: collapseAux WSState.clear rest
  | WSState.inRun, c :: rest =>
    if isWS c then collapseAux WSState.inRun rest else c :: collapseAux WSState.clear rest

/-- `re.sub(r"\s{2,}", " ", s)` as used on line 53. -/
def collapseWS (s : List Char) : List Char := collapseAux WSState.clear s

/-- `tidy_text` (lines 46–54): empty guard, strip, newline-variant
replacement, whitespace-run collapse, final strip. -/
def tidy_text (s : List Char) : List Char :=
  if s = [] then []
  else strip ((collapseWS (((replaceCRLF (strip s)).map replNL).map replCR)))

/-! ## Speech worker (`SapiNaturalSpeaker`, lines 68–125) and
`voice_test.py` -/

/-- `__init__` (line 75): `self._match = (natural_match_substr or "").lower()`;
`none` models passing Python `None`, and `None or ""` is `""`. -/
def initMatch (natural_match_substr : Option (List Char)) : List Char :=
  toLowerL (natural_match_substr.getD [])

/-- The voice-selection loop of `_run` (lines 91–98): the first token whose
description, lowercased, contains `self._match`, guarded by the truthiness
test `if self._match and ...` (an empty match string never selects);
`none` means no `voice.Voice` assignment happens and the engine default
voice stays active. -/
def select_voice (m : List Char) (descs : List (List Char)) : Option (List Char) :=
  descs.find? (fun desc => !(m == []) && containsSub m (toLowerL desc))

/-- Voice selection as the worker performs it for a configured substring
`cfg`: `__init__` lowercases it, then `_run` scans the descriptions. -/
def worker_selected (cfg : List Char) (descs : List (List Char)) : Option (List Char) :=
  select_voice (initMatch (some cfg)) descs

/-- Modelled from the spec: "performs a case-insensitive substring search
over voice descriptions for a configured match string, selects the first hit
or else leaves the engine default active" (`none` = default). -/
def firstMatchCI (m : List Char) (descs : List (List Char)) : Option (List Char) :=
  descs.find? (fun desc => containsSub (toLowerL m) (toLowerL desc))

/-- Which SAPI COM calls raise during `_run`'s startup (lines 87–111):
`Dispatch("SAPI.SpVoice")`, the `GetVoices`/`Item`/`GetDescription`
enumeration, and the rate/volume tuning assignments; `descs` lists the
descriptions the enumeration yields when it succeeds. -/
structure SapiEnv where
  dispatchFails : Bool
  enumFails : Bool
  descs : List (List Char)
  tuningFails : Bool
deriving DecidableEq, Repr

/-- Exception flow of `_run`'s startup (lines 87–111): neither `Dispatch`
nor the voice-enumeration/selection loop sits inside an `except` handler, so
an error there propagates out of `_run` (the `finally` only uninitialises
COM) and the worker loop is never entered; only the rate/volume tuning is
wrapped in `try/except: pass`, so `tuningFails` cannot abort startup. On
success the loop is reached with the selected voice (`none` = default). -/
def run_startup (m : List Char) (env : SapiEnv) : Except Unit (Option (List Char)) :=
  if env.dispatchFails then Except.error ()
  else if env.enumFails then Except.error ()
  else Except.ok (select_voice m env.descs)

/-- The worker-visible mutable state: the pending-utterance FIFO `self._q`
and the selected-voice handle. -/
structure WorkerState where
  queue : List (List Char)
  voice : Option (List Char)
deriving DecidableEq, Repr

/-- `speak` (lines 79–81): `if text and len(text) >= MIN_CHARS_TO_SPEAK:
self._q.put(text)`; otherwise nothing happens. -/
def speak (st : WorkerState) (text : List Char) : WorkerState :=
  if text ≠ [] ∧ MIN_CHARS_TO_SPEAK ≤ text.length then
    { st with queue := st.queue ++ [text] }
  else st

/-- Submitting a sequence of texts in order through `speak`. -/
def submit_all (st : WorkerState) (texts : List (List Char)) : WorkerState :=
  texts.foldl speak st

/-- Whether `voice.Speak(txt)` raises for a given utterance. -/
def speakCall (fails : List Char → Bool) (txt : List Char) : Except Unit Unit :=
  if fails txt then Except.error () else Except.ok ()

/-- One iteration of the worker loop (lines 113–123). An empty queue is the
`Empty` timeout: `continue`, no engine call. Otherwise the head is dequeued
and `voice.Speak` is invoked on it; the `except Exception: pass` makes the
outcome of the call irrelevant to the resulting state. The second component
records the engine invocations made by this iteration. -/
def worker_step (fails : List Char → Bool) (st : WorkerState) :
    WorkerState × List (List Char) :=
  match st.queue with
  | [] => (st, [])
  | txt :: rest =>
    match speakCall fails txt with
    | Except.error () => ({ st with queue := rest }, [txt])
    | Except.ok () => ({ st with queue := rest }, [txt])

/-- `n` iterations of the worker loop, collecting the engine invocations in
order. -/
def worker_run (fails : List Char → Bool) (st : WorkerState) : Nat → WorkerState × List (List Char)
  | 0 => (st, [])
  | Nat.succ n =>
    ((worker_run fails (worker_step fails st).1 n).1,
      (worker_step fails st).2 ++ (worker_run fails (worker_step fails st).1 n).2)

/-- The scan loop of `voice_test.py` (lines 7–14): `chosen` starts as `None`
and is overwritten at every description containing `"natural"`
case-insensitively; there is no `break`, so a later match replaces an
earlier one. -/
def voice_test_scan (descs : List (List Char)) : Option (List Char) :=
  descs.foldl
    (fun chosen d => if containsSub NATURAL_MATCH_SUBSTR (toLowerL d) then some d else chosen)
    none

/-- The adjacency relation violated by a run of two whitespace characters:
of two neighbouring characters at least one is not whitespace. -/
def noTwoWS (a b : Char) : Prop := (isWS a && isWS b) = false

/-! ## Lemmas and claim theorems -/

lemma goodRead_iff (baseline : List Char) (r : ClipRead) :
    goodRead baseline r = true ↔
      ∃ c, get_clipboard_text r = some c ∧ c ≠ [] ∧ c ≠ baseline := by
  cases r <;> simp [goodRead, get_clipboard_text]

lemma goodRead_true (baseline c : List Char) (r : ClipRead)
    (hr : get_clipboard_text r = some c) (h1 : c ≠ []) (h2 : c ≠ baseline) :
    goodRead baseline r = true := by
  cases r <;> simp_all [goodRead, get_clipboard_text]

lemma goodRead_false (baseline : List Char) (r : ClipRead)
    (h : ∀ c, get_clipboard_text r = some c → c = [] ∨ c = baseline) :
    goodRead baseline r = false := by
  cases r with
  | fail => rfl
  | noText => rfl
  | text s =>
    rcases h s rfl with h' | h' <;> simp [goodRead, get_clipboard_text, h']

lemma wait_none_iff (baseline : List Char) : ∀ reads : List ClipRead,
    wait_for_clip_change baseline reads = none ↔
      ∀ r ∈ reads, goodRead baseline r = false := by
  intro reads
  induction reads with
  | nil => simp [wait_for_clip_change]
  | cons r rest ih =>
    cases hr : get_clipboard_text r with
    | none =>
      have hg : goodRead baseline r = false := by
        cases r <;> simp_all [goodRead, get_clipboard_text]
      simp [wait_for_clip_change, hr, ih, hg]
    | some c =>
      by_cases hc : c ≠ [] ∧ c ≠ baseline
      · have hg : goodRead baseline r = true := goodRead_true baseline c r hr hc.1 hc.2
        simp [wait_for_clip_change, hr, hc, hg]
      · have hg : goodRead baseline r = false := by
          cases r <;> simp_all [goodRead, get_clipboard_text]
          tauto
        simp [wait_for_clip_change, hr, hc, ih, hg]

lemma wait_some_iff (baseline : List Char) : ∀ (reads : List ClipRead) (c : List Char),
    wait_for_clip_change baseline reads = some c ↔
      ∃ pre r post, reads = pre ++ r :: post ∧ get_clipboard_text r = some c ∧
        c ≠ [] ∧ c ≠ baseline ∧ ∀ r' ∈ pre, goodRead baseline r' = false := by
  intro reads
  induction reads with
  | nil =>
    intro c
    constructor
    · intro h; simp [wait_for_clip_change] at h
    · rintro ⟨pre, r, post, h, -⟩
      exact absurd h (by simp)
  | cons r rest ih =>
    intro c
    cases hr : get_clipboard_text r with
    | none =>
      have hg : goodRead baseline r = false := by
        cases r <;> simp_all [goodRead, get_clipboard_text]
      have hL : wait_for_clip_change baseline (r :: rest) =
          wait_for_clip_change baseline rest := by
        simp [wait_for_clip_change, hr]
      rw [hL, ih c]
      constructor
      · rintro ⟨pre, r', post, heq, h1, h2, h3, h4⟩
        refine ⟨r :: pre, r', post, by simp [heq], h1, h2, h3, ?_⟩
        intro r'' hmem
        rcases List.mem_cons.mp hmem with h | h
        · exact h ▸ hg
        · exact h4 r'' h
      · rintro ⟨pre, r', post, heq, h1, h2, h3, h4⟩
        cases pre with
        | nil =>
          simp only [List.nil_append, List.cons.injEq] at heq
          rw [← heq.1] at h1
          rw [hr] at h1
          exact absurd h1 (by simp)
        | cons p pre' =>
          rw [List.cons_append, List.cons.injEq] at heq
          exact ⟨pre', r', post, heq.2, h1, h2, h3,
            fun r'' h => h4 r'' (List.mem_cons_of_mem p h)⟩
    | some c0 =>
      by_cases hc : c0 ≠ [] ∧ c0 ≠ baseline
      · have hg : goodRead baseline r = true := goodRead_true baseline c0 r hr hc.1 hc.2
        have hL : wait_for_clip_change baseline (r :: rest) = some c0 := by
          simp [wait_for_clip_change, hr, hc]
        rw [hL]
        constructor
        · intro h
          rw [Option.some.injEq] at h
          exact ⟨[], r, rest, rfl, h ▸ hr, h ▸ hc.1, h ▸ hc.2, by simp⟩
        · rintro ⟨pre, r', post, heq, h1, h2, h3, h4⟩
          cases pre with
          | nil =>
            simp only [List.nil_append, List.cons.injEq] at heq
            rw [← heq.1] at h1
            rw [hr] at h1
            exact h1
          | cons p pre' =>
            rw [List.cons_append, List.cons.injEq] at heq
            have hrp : r ∈ p :: pre' := by
              rw [heq.1]; exact List.mem_cons_self p pre'
            have := h4 r hrp
            rw [this] at hg
            exact absurd hg (by simp)
      · have hg : goodRead baseline r = false := by
          cases r <;> simp_all [goodRead, get_clipboard_text]
          tauto
        have hL : wait_for_clip_change baseline (r :: rest) =
            wait_for_clip_change baseline rest := by
          simp [wait_for_clip_change, hr, hc]
        rw [hL, ih c]
        constructor
        · rintro ⟨pre, r', post, heq, h1, h2, h3, h4⟩
          refine ⟨r :: pre, r', post, by simp [heq], h1, h2, h3, ?_⟩
          intro r'' hmem
          rcases List.mem_cons.mp hmem with h | h
          · exact h ▸ hg
          · exact h4 r'' h
        · rintro ⟨pre, r', post, heq, h1, h2, h3, h4⟩
          cases pre with
          | nil =>
            simp only [List.nil_append, List.cons.injEq] at heq
            rw [← heq.1] at h1
            rw [hr] at h1
            rw [Option.some.injEq] at h1
            subst h1
            exact absurd ⟨h2, h3⟩ hc
          | cons p pre' =>
            rw [List.cons_append, List.cons.injEq] at heq
            exact ⟨pre', r', post, heq.2, h1, h2, h3,
              fun r'' h => h4 r'' (List.mem_cons_of_mem p h)⟩

/-- **C1.** `wait_for_clip_change` returns the first polled clipboard value
that is non-empty and different from the baseline; when no poll inside the
timeout window produces such a value it returns `none`; and a failing
clipboard read is exactly a poll with no text: it is skipped and polling
resumes, while the function (being total) never raises. -/
theorem wait_for_clip_change_correct (baseline : List Char) (reads : List ClipRead) :
    (∀ c, wait_for_clip_change baseline reads = some c ↔
        ∃ pre r post, reads = pre ++ r :: post ∧ get_clipboard_text r = some c ∧
          c ≠ [] ∧ c ≠ baseline ∧ ∀ r' ∈ pre, goodRead baseline r' = false) ∧
    (wait_for_clip_change baseline reads = none ↔
        ∀ r ∈ reads, goodRead baseline r = false) ∧
    (∀ rest, wait_for_clip_change baseline (ClipRead.fail :: rest) =
        wait_for_clip_change baseline rest) :=
  ⟨fun c => wait_some_iff baseline reads c, wait_none_iff baseline reads,
   fun _ => rfl⟩

lemma collapseAux_inRun_head : ∀ (l : List Char) (c : Char),
    (collapseAux WSState.inRun l).head? = some c → isWS c = false := by
  intro l
  induction l with
  | nil => intro c h; simp [collapseAux] at h
  | cons a t ih =>
    intro c h
    cases hws : isWS a with
    | false =>
      rw [collapseAux, hws] at h
      simp at h
      rw [← h]; exact hws
    | true =>
      rw [collapseAux, hws] at h
      exact ih c (by simpa using h)

lemma collapseAux_chain' : ∀ (l : List Char) (st : WSState),
    List.Chain' noTwoWS (collapseAux st l) := by
  intro l
  induction l with
  | nil => intro st; cases st <;> simp [collapseAux]
  | cons a t ih =>
    intro st
    cases st with
    | clear =>
      cases hws : isWS a with
      | false =>
        rw [collapseAux, hws]
        simp only [Bool.false_eq_true, if_false]
        rw [List.chain'_cons']
        exact ⟨fun y _ => by simp [noTwoWS, hws], ih WSState.clear⟩
      | true =>
        rw [collapseAux, hws]
        simpa using ih (WSState.pending a)
    | pending w =>
      cases hws : isWS a with
      | false =>
        rw [collapseAux, hws]
        simp only [Bool.false_eq_true, if_false]
        rw [List.chain'_cons', List.chain'_cons']
        refine ⟨?_, ?_, ih WSState.clear⟩
        · intro y hy
          simp at hy
          rw [← hy]
          simp [noTwoWS, hws]
        · intro y _
          simp [noTwoWS, hws]
      | true =>
        rw [collapseAux, hws]
        simp only [if_true]
        rw [List.chain'_cons']
        refine ⟨?_, ih WSState.inRun⟩
        intro y hy
        have := collapseAux_inRun_head t y hy
        simp [noTwoWS, this]
    | inRun =>
      cases hws : isWS a with
      | false =>
        rw [collapseAux, hws]
        simp only [Bool.false_eq_true, if_false]
        rw [List.chain'_cons']
        exact ⟨fun y _ => by simp [noTwoWS, hws], ih WSState.clear⟩
      | true =>
        rw [collapseAux, hws]
        simpa using ih WSState.inRun

lemma collapseAux_mem : ∀ (l : List Char) (st : WSState) (c : Char),
    c ∈ collapseAux st l → c ∈ l ∨ c = ' ' ∨ st = WSState.pending c := by
  intro l
  induction l with
  | nil =>
    intro st c h
    cases st <;> simp [collapseAux] at h
    exact Or.inr (Or.inr (by rw [h]))
  | cons a t ih =>
    intro st c h
    cases st with
    | clear =>
      cases hws : isWS a with
      | false =>
        rw [collapseAux, hws] at h
        simp only [Bool.false_eq_true, if_false, List.mem_cons] at h
        rcases h with h | h
        · exact Or.inl (by simp [h])
        · rcases ih WSState.clear c h with h' | h' | h'
          · exact Or.inl (by simp [h'])
          · exact Or.inr (Or.inl h')
          · exact absurd h' (by simp)
      | true =>
        rw [collapseAux, hws] at h
        simp only [if_true] at h
        rcases ih (WSState.pending a) c h with h' | h' | h'
        · exact Or.inl (by simp [h'])
        · exact Or.inr (Or.inl h')
        · have : a = c := by injection h'
          exact Or.inl (by simp [this])
    | pending w =>
      cases hws : isWS a with
      | false =>
        rw [collapseAux, hws] at h
        simp only [Bool.false_eq_true, if_false, List.mem_cons] at h
        rcases h with h | h | h
        · exact Or.inr (Or.inr (by rw [h]))
        · exact Or.inl (by simp [h])
        · rcases ih WSState.clear c h with h' | h' | h'
          · exact Or.inl (by simp [h'])
          · exact Or.inr (Or.inl h')
          · exact absurd h' (by simp)
      | true =>
        rw [collapseAux, hws] at h
        simp only [if_true, List.mem_cons] at h
        rcases h with h | h
        · exact Or.inr (Or.inl h)
        · rcases ih WSState.inRun c h with h' | h' | h'
          · exact Or.inl (by simp [h'])
          · exact Or.inr (Or.inl h')
          · exact absurd h' (by simp)
    | inRun =>
      cases hws : isWS a with
      | false =>
        rw [collapseAux, hws] at h
        simp only [Bool.false_eq_true, if_false, List.mem_cons] at h
        rcases h with h | h
        · exact Or.inl (by simp [h])
        · rcases ih WSState.clear c h with h' | h' | h'
          · exact Or.inl (by simp [h'])
          · exact Or.inr (Or.inl h')
          · exact absurd h' (by simp)
      | true =>
        rw [collapseAux, hws] at h
        simp only [if_true] at h
        rcases ih WSState.inRun c h with h' | h' | h'
        · exact Or.inl (by simp [h'])
        · exact Or.inr (Or.inl h')
        · exact absurd h' (by simp)

lemma collapseAux_clear_fix : ∀ l : List Char,
    List.Chain' noTwoWS l → collapseAux WSState.clear l = l := by
  intro l
  induction l with
  | nil => intro _; rfl
  | cons a t ih =>
    intro hch
    cases hws : isWS a with
    | false =>
      rw [collapseAux, hws]
      simp only [Bool.false_eq_true, if_false]
      rw [ih (List.chain'_cons'.mp hch).2]
    | true =>
      rw [collapseAux, hws]
      simp only [if_true]
      cases t with
      | nil => rfl
      | cons b t' =>
        have hab : noTwoWS a b := List.chain'_cons'.mp hch |>.1 b (by simp)
        have hb : isWS b = false := by
          have hx := hab
          unfold noTwoWS at hx
          rw [hws] at hx
          simpa using hx
        rw [collapseAux, hb]
        simp only [Bool.false_eq_true, if_false]
        have hcht : List.Chain' noTwoWS (b :: t') := (List.chain'_cons'.mp hch).2
        have := ih hcht
        rw [collapseAux, hb] at this
        simp only [Bool.false_eq_true, if_false, List.cons.injEq] at this
        rw [this.2]

lemma head?_dropWhile_isWS : ∀ (l : List Char) (c : Char),
    (l.dropWhile isWS).head? = some c → isWS c = false := by
  intro l
  induction l with
  | nil => intro c h; simp at h
  | cons a t ih =>
    intro c h
    rw [List.dropWhile_cons] at h
    cases hws : isWS a with
    | false =>
      rw [hws] at h
      simp at h
      rw [← h]; exact hws
    | true =>
      rw [hws] at h
      exact ih c (by simpa using h)

lemma strip_getLast?_not_ws (l : List Char) (c : Char)
    (h : (strip l).getLast? = some c) : isWS c = false := by
  unfold strip at h
  rw [List.getLast?_reverse] at h
  exact head?_dropWhile_isWS _ c h

lemma strip_decomp (l : List Char) :
    ∃ s t, l = s ++ strip l ++ t := by
  obtain ⟨s, hs⟩ := List.dropWhile_suffix (l := l) isWS
  obtain ⟨w, hw⟩ := List.dropWhile_suffix (l := (l.dropWhile isWS).reverse) isWS
  refine ⟨s, w.reverse, ?_⟩
  unfold strip
  have : l.dropWhile isWS =
      ((l.dropWhile isWS).reverse.dropWhile isWS).reverse ++ w.reverse := by
    rw [← List.reverse_append, hw, List.reverse_reverse]
  rw [List.append_assoc, ← this, hs]

lemma strip_head?_not_ws (l : List Char) (c : Char)
    (h : (strip l).head? = some c) : isWS c = false := by
  obtain ⟨w, hw⟩ := List.dropWhile_suffix (l := (l.dropWhile isWS).reverse) isWS
  have hdec : l.dropWhile isWS = strip l ++ w.reverse := by
    unfold strip
    rw [← List.reverse_append, hw, List.reverse_reverse]
  have hne : strip l ≠ [] := by
    intro hnil
    rw [hnil] at h
    simp at h
  have : (l.dropWhile isWS).head? = some c := by
    rw [hdec, List.head?_append_of_ne_nil _ hne, h]
  exact head?_dropWhile_isWS l c this

lemma mem_of_mem_strip {c : Char} {l : List Char} (h : c ∈ strip l) : c ∈ l := by
  unfold strip at h
  rw [List.mem_reverse] at h
  have h1 := (List.dropWhile_suffix isWS).subset h
  rw [List.mem_reverse] at h1
  exact (List.dropWhile_suffix isWS).subset h1

lemma strip_chain' {l : List Char} (h : List.Chain' noTwoWS l) :
    List.Chain' noTwoWS (strip l) := by
  obtain ⟨s, t, hst⟩ := strip_decomp l
  exact h.infix ⟨s, t, hst.symm⟩

lemma dropWhile_eq_self_of_head (l : List Char)
    (h : ∀ c, l.head? = some c → isWS c = false) : l.dropWhile isWS = l := by
  cases l with
  | nil => rfl
  | cons a t =>
    rw [List.dropWhile_cons, h a rfl]
    simp

lemma strip_eq_self (l : List Char)
    (h1 : ∀ c, l.head? = some c → isWS c = false)
    (h2 : ∀ c, l.getLast? = some c → isWS c = false) : strip l = l := by
  unfold strip
  rw [dropWhile_eq_self_of_head l h1]
  rw [dropWhile_eq_self_of_head l.reverse
    (fun c hc => h2 c (by rwa [List.head?_reverse] at hc))]
  exact List.reverse_reverse l

lemma replNL_ne_NL (c : Char) : replNL c ≠ '\n' := by
  unfold replNL
  by_cases h : c = '\n' <;> simp [h]

lemma replCR_ne_CR (c : Char) : replCR c ≠ '\r' := by
  unfold replCR
  by_cases h : c = '\r' <;> simp [h]

lemma replCR_ne_NL {c : Char} (h : c ≠ '\n') : replCR c ≠ '\n' := by
  unfold replCR
  by_cases h' : c = '\r' <;> simp [h', h]

lemma not_NL_mem_map_replNL (l : List Char) : '\n' ∉ l.map replNL := by
  intro h
  rcases List.mem_map.mp h with ⟨d, -, hd⟩
  exact replNL_ne_NL d hd

lemma not_CR_mem_map_replCR (l : List Char) : '\r' ∉ l.map replCR := by
  intro h
  rcases List.mem_map.mp h with ⟨d, -, hd⟩
  exact replCR_ne_CR d hd

lemma not_NL_mem_map_replCR {l : List Char} (h : '\n' ∉ l) : '\n' ∉ l.map replCR := by
  intro hmem
  rcases List.mem_map.mp hmem with ⟨d, hd, hde⟩
  exact replCR_ne_NL (fun he => h (he ▸ hd)) hde

lemma replaceCRLF_eq_self : ∀ l : List Char, '\r' ∉ l → replaceCRLF l = l := by
  intro l
  induction l with
  | nil => intro _; rfl
  | cons a t ih =>
    intro h
    have ha : a ≠ '\r' := fun he => h (by simp [he])
    cases t with
    | nil => rfl
    | cons b t' =>
      rw [replaceCRLF]
      rw [if_neg (fun hc => ha hc.1)]
      rw [ih (fun hm => h (List.mem_cons_of_mem a hm))]

lemma map_eq_self_of {f : Char → Char} : ∀ {l : List Char},
    (∀ c ∈ l, f c = c) → l.map f = l := by
  intro l h
  induction l with
  | nil => rfl
  | cons a t ih =>
    simp only [List.map_cons]
    rw [h a (by simp), ih (fun c hc => h c (by simp [hc]))]

lemma tidy_no_NL (s : List Char) : '\n' ∉ tidy_text s := by
  unfold tidy_text
  by_cases hs : s = []
  · simp [hs]
  · rw [if_neg hs]
    intro h
    have h1 := mem_of_mem_strip h
    rcases collapseAux_mem _ WSState.clear _ h1 with h2 | h2 | h2
    · exact not_NL_mem_map_replCR (not_NL_mem_map_replNL _) h2
    · exact absurd h2 (by decide)
    · exact absurd h2 (by simp)

lemma tidy_no_CR (s : List Char) : '\r' ∉ tidy_text s := by
  unfold tidy_text
  by_cases hs : s = []
  · simp [hs]
  · rw [if_neg hs]
    intro h
    have h1 := mem_of_mem_strip h
    rcases collapseAux_mem _ WSState.clear _ h1 with h2 | h2 | h2
    · exact not_CR_mem_map_replCR _ h2
    · exact absurd h2 (by decide)
    · exact absurd h2 (by simp)

lemma tidy_chain' (s : List Char) : List.Chain' noTwoWS (tidy_text s) := by
  unfold tidy_text
  by_cases hs : s = []
  · simp [hs]
  · rw [if_neg hs]
    exact strip_chain' (collapseAux_chain' _ WSState.clear)

lemma tidy_head (s : List Char) (c : Char)
    (h : (tidy_text s).head? = some c) : isWS c = false := by
  unfold tidy_text at h
  by_cases hs : s = []
  · rw [if_pos hs] at h; simp at h
  · rw [if_neg hs] at h
    exact strip_head?_not_ws _ c h

lemma tidy_last (s : List Char) (c : Char)
    (h : (tidy_text s).getLast? = some c) : isWS c = false := by
  unfold tidy_text at h
  by_cases hs : s = []
  · rw [if_pos hs] at h; simp at h
  · rw [if_neg hs] at h
    exact strip_getLast?_not_ws _ c h

lemma chain'_no_double_space (t : List Char) (hch : List.Chain' noTwoWS t) :
    ∀ l r : List Char, t ≠ l ++ ' ' :: ' ' :: r := by
  intro l r heq
  have : List.Chain' noTwoWS [' ', ' '] :=
    hch.infix ⟨l, r, by rw [heq]; simp⟩
  have h2 : noTwoWS ' ' ' ' := List.chain'_pair.mp this
  unfold noTwoWS at h2
  simp [isWS] at h2

/-- **C2.** The output of `tidy_text` never contains a newline character
(neither LF nor CR), never contains two adjacent space characters (so no run
of two or more spaces), and neither starts nor ends with a whitespace
character. -/
theorem tidy_text_clean (s : List Char) :
    '\n' ∉ tidy_text s ∧ '\r' ∉ tidy_text s ∧
    (∀ l r : List Char, tidy_text s ≠ l ++ ' ' :: ' ' :: r) ∧
    (∀ c, (tidy_text s).head? = some c → isWS c = false) ∧
    (∀ c, (tidy_text s).getLast? = some c → isWS c = false) :=
  ⟨tidy_no_NL s, tidy_no_CR s,
   chain'_no_double_space (tidy_text s) (tidy_chain' s),
   tidy_head s, tidy_last s⟩

lemma tidy_text_eq_self (t : List Char)
    (hNL : '\n' ∉ t) (hCR : '\r' ∉ t) (hch : List.Chain' noTwoWS t)
    (hh : ∀ c, t.head? = some c → isWS c = false)
    (hl : ∀ c, t.getLast? = some c → isWS c = false) :
    tidy_text t = t := by
  by_cases ht : t = []
  · rw [ht]; rfl
  · unfold tidy_text
    rw [if_neg ht]
    rw [strip_eq_self t hh hl]
    rw [replaceCRLF_eq_self t hCR]
    rw [map_eq_self_of (f := replNL)
      (fun c hc => by
        unfold replNL
        rw [if_neg (fun he : c = '\n' => hNL (he ▸ hc))])]
    rw [map_eq_self_of (f := replCR)
      (fun c hc => by
        unfold replCR
        rw [if_neg (fun he : c = '\r' => hCR (he ▸ hc))])]
    unfold collapseWS
    rw [collapseAux_clear_fix t hch]
    exact strip_eq_self t hh hl

/-- **C8.** `tidy_text` is idempotent: normalising an already-normalised
string changes nothing, so for every input string applying `tidy_text`
twice equals applying it once. -/
theorem tidy_text_idem (s : List Char) :
    tidy_text (tidy_text s) = tidy_text s :=
  tidy_text_eq_self (tidy_text s) (tidy_no_NL s) (tidy_no_CR s)
    (tidy_chain' s) (tidy_head s) (tidy_last s)

/-- **C3.** At worker startup the selected voice is the first enumerated
descriptor containing the configured (non-empty) match substring
case-insensitively — the code's scan agrees with the spec-modelled
`firstMatchCI` and with the explicit first-hit decomposition — and when no
descriptor contains the substring nothing is selected (`none`: the engine
default voice stays active); in particular the spec's concrete example
selects `"Microsoft Natural-II"`. -/
theorem worker_voice_selection (cfg : List Char) (descs : List (List Char))
    (h : cfg ≠ []) :
    worker_selected cfg descs = firstMatchCI cfg descs ∧
    (∀ d, worker_selected cfg descs = some d ↔
      containsSub (toLowerL cfg) (toLowerL d) = true ∧
      ∃ pre post, descs = pre ++ d :: post ∧
        ∀ d' ∈ pre, containsSub (toLowerL cfg) (toLowerL d') = false) ∧
    ((∀ d ∈ descs, containsSub (toLowerL cfg) (toLowerL d) = false) →
      worker_selected cfg descs = none) ∧
    worker_selected "natural".toList
      ["Microsoft David".toList, "Microsoft Natural-II".toList,
       "Microsoft Zira".toList] = some "Microsoft Natural-II".toList := by
  have hlm : toLowerL cfg ≠ [] := by
    intro he
    cases cfg with
    | nil => exact h rfl
    | cons a t => simp [toLowerL] at he
  have hpred :
      (fun desc => !(toLowerL cfg == []) && containsSub (toLowerL cfg) (toLowerL desc))
        = (fun desc => containsSub (toLowerL cfg) (toLowerL desc)) := by
    funext desc
    simp [hlm]
  have heq : worker_selected cfg descs = firstMatchCI cfg descs := by
    unfold worker_selected select_voice firstMatchCI initMatch
    simp only [Option.getD_some]
    rw [hpred]
  refine ⟨heq, ?_, ?_, by decide⟩
  · intro d
    rw [heq]
    unfold firstMatchCI
    rw [List.find?_eq_some]
    constructor
    · rintro ⟨hp, pre, post, hd, hpre⟩
      exact ⟨hp, pre, post, hd, fun d' hd' => by simpa using hpre d' hd'⟩
    · rintro ⟨hp, pre, post, hd, hpre⟩
      exact ⟨hp, pre, post, hd, fun d' hd' => by simp [hpre d' hd']⟩
  · intro hall
    rw [heq]
    unfold firstMatchCI
    exact List.find?_eq_none.mpr (fun x hx => by simp [hall x hx])

/-- Witness for `worker_voice_selection` at the spec's concrete voice list. -/
theorem worker_voice_selection_witness :
    worker_selected "natural".toList
      ["Microsoft David".toList, "Microsoft Natural-II".toList,
       "Microsoft Zira".toList] = some "Microsoft Natural-II".toList :=
  (worker_voice_selection "natural".toList
    ["Microsoft David".toList, "Microsoft Natural-II".toList,
     "Microsoft Zira".toList] (by decide)).2.2.2

lemma getLast?_cons_or {α : Type} : ∀ (l : List α) (a : α),
    (a :: l).getLast? = (l.getLast?).or (some a) := by
  intro l
  induction l with
  | nil => intro a; rfl
  | cons b t ih =>
    intro a
    rw [List.getLast?_cons_cons, ih b]
    cases h : t.getLast? with
    | none => rfl
    | some x => rfl

lemma scan_last (p : List Char → Bool) : ∀ (l : List (List Char)) (init : Option (List Char)),
    l.foldl (fun chosen d => if p d then some d else chosen) init =
      ((l.filter p).getLast?).or init := by
  intro l
  induction l with
  | nil => intro init; rfl
  | cons a t ih =>
    intro init
    rw [List.foldl_cons]
    cases hp : p a with
    | false =>
      rw [if_neg (by simp [hp])]
      rw [ih init, List.filter_cons_of_neg (by simp [hp])]
    | true =>
      rw [if_pos (by simp [hp])]
      rw [ih (some a), List.filter_cons_of_pos (by simp [hp])]
      rw [getLast?_cons_or]
      cases h : (t.filter p).getLast? with
      | none => rfl
      | some x => rfl

/-- **C9.** The companion script's scan overwrites `chosen` at every
case-insensitive `"natural"` match and never breaks, so it ends on the LAST
matching descriptor in enumeration order — shown in general (the result is
the last element of the matching sublist) and on a concrete two-match list,
where the main worker's selection takes the FIRST match instead. -/
theorem voice_test_last_match (descs : List (List Char)) :
    voice_test_scan descs =
      (descs.filter (fun d => containsSub NATURAL_MATCH_SUBSTR (toLowerL d))).getLast? ∧
    voice_test_scan
      ["Microsoft Aria Natural".toList, "Microsoft Jenny Natural".toList] =
      some "Microsoft Jenny Natural".toList ∧
    worker_selected "natural".toList
      ["Microsoft Aria Natural".toList, "Microsoft Jenny Natural".toList] =
      some "Microsoft Aria Natural".toList := by
  refine ⟨?_, by decide, by decide⟩
  unfold voice_test_scan
  rw [scan_last]
  exact Option.or_none

/-- **C10.** A speaker constructed with an empty or `None` match substring
selects no voice at all (the engine default stays active) even though every
description contains the empty substring: the selection test requires
`self._match` to be truthy, i.e. non-empty. -/
theorem empty_match_no_selection (descs : List (List Char)) :
    select_voice (initMatch none) descs = none ∧
    select_voice (initMatch (some [])) descs = none ∧
    ∀ d ∈ descs, containsSub [] (toLowerL d) = true := by
  have hnil : ∀ hay : List Char, containsSub [] hay = true := by
    intro hay
    cases hay with
    | nil => rfl
    | cons a t => rfl
  have h : select_voice [] descs = none := by
    unfold select_voice
    rw [List.find?_eq_none]
    intro x _
    simp
  exact ⟨h, h, fun d _ => hnil (toLowerL d)⟩

lemma worker_step_eq (fails : List Char → Bool) (st : WorkerState) :
    worker_step fails st =
      ({ queue := st.queue.drop 1, voice := st.voice }, st.queue.take 1) := by
  cases st with
  | mk q v =>
    cases q with
    | nil => rfl
    | cons txt rest =>
      unfold worker_step speakCall
      cases h : fails txt with
      | false => simp [h]
      | true => simp [h]

lemma worker_run_eq (fails : List Char → Bool) : ∀ (n : Nat) (st : WorkerState),
    worker_run fails st n =
      ({ queue := st.queue.drop n, voice := st.voice }, st.queue.take n) := by
  intro n
  induction n with
  | zero => intro st; cases st; rfl
  | succ k ih =>
    intro st
    unfold worker_run
    rw [worker_step_eq]
    dsimp only
    rw [ih]
    cases st with
    | mk q v =>
      dsimp only
      have hdrop : List.drop k (List.drop 1 q) = List.drop (k + 1) q := by
        rw [List.drop_drop, Nat.add_comm]
      have htake : List.take 1 q ++ List.take k (List.drop 1 q) = List.take (k + 1) q := by
        rw [Nat.add_comm k 1, List.take_add]
      rw [hdrop, htake]

lemma submit_all_queue : ∀ (texts : List (List Char)) (st : WorkerState),
    (∀ t ∈ texts, t ≠ [] ∧ MIN_CHARS_TO_SPEAK ≤ t.length) →
    submit_all st texts = { st with queue := st.queue ++ texts } := by
  intro texts
  induction texts with
  | nil => intro st _; cases st; simp [submit_all]
  | cons a ts ih =>
    intro st h
    have ha := h a (by simp)
    have hsp : speak st a = { st with queue := st.queue ++ [a] } := by
      unfold speak
      rw [if_pos ha]
    have hfold : submit_all st (a :: ts) = submit_all (speak st a) ts := by
      unfold submit_all
      rw [List.foldl_cons]
    rw [hfold, ih (speak st a) (fun t ht => h t (by simp [ht])), hsp]
    simp

/-- **C6.** `speak` enqueues exactly the texts that meet the minimum-length
threshold — appending at the queue tail, voice untouched — and is a complete
no-op for shorter texts; consequently a short text never reaches the
engine's speak call: after submitting it to an idle worker, no number of
loop iterations produces any engine invocation. -/
theorem speak_threshold (st : WorkerState) (text : List Char) :
    (MIN_CHARS_TO_SPEAK ≤ text.length →
      speak st text = { st with queue := st.queue ++ [text] }) ∧
    (text.length < MIN_CHARS_TO_SPEAK → speak st text = st) ∧
    (∀ (fails : List Char → Bool) (v : Option (List Char)) (n : Nat),
      text.length < MIN_CHARS_TO_SPEAK →
      (worker_run fails (speak { queue := [], voice := v } text) n).2 = []) := by
  have hshort : ∀ h : text.length < MIN_CHARS_TO_SPEAK, ∀ st' : WorkerState,
      speak st' text = st' := by
    intro h st'
    unfold speak
    rw [if_neg (fun hc => absurd hc.2 (Nat.not_le.mpr h))]
  refine ⟨?_, fun h => hshort h st, ?_⟩
  · intro h
    have hne : text ≠ [] := by
      intro he
      rw [he] at h
      simp [MIN_CHARS_TO_SPEAK] at h
    unfold speak
    rw [if_pos ⟨hne, h⟩]
  · intro fails v n h
    rw [hshort h _, worker_run_eq]
    simp

/-- **C7.** Submitting any sequence of threshold-meeting strings in order
and then running the worker loop at least that many iterations yields
exactly one engine invocation per string, in submission order — for every
behaviour of the engine's speak call (`fails` arbitrary), so slow or
raising invocations cannot drop or reorder utterances. -/
theorem submit_order_preserved (texts : List (List Char)) (v : Option (List Char))
    (fails : List Char → Bool) (n : Nat)
    (hval : ∀ t ∈ texts, MIN_CHARS_TO_SPEAK ≤ t.length)
    (hn : texts.length ≤ n) :
    (worker_run fails (submit_all { queue := [], voice := v } texts) n).2 = texts ∧
    (worker_run fails (submit_all { queue := [], voice := v } texts) n).2.length
      = texts.length := by
  have hval' : ∀ t ∈ texts, t ≠ [] ∧ MIN_CHARS_TO_SPEAK ≤ t.length := by
    intro t ht
    refine ⟨?_, hval t ht⟩
    intro he
    have hl := hval t ht
    rw [he] at hl
    simp [MIN_CHARS_TO_SPEAK] at hl
  have h1 : (worker_run fails (submit_all { queue := [], voice := v } texts) n).2 = texts := by
    rw [submit_all_queue texts _ hval', worker_run_eq]
    simp only [List.nil_append]
    exact List.take_of_length_le hn
  exact ⟨h1, by rw [h1]⟩

/-- Witness for `submit_order_preserved`: two valid strings, an engine whose
speak call raises every time, two loop iterations — both utterances are
still invoked, in order. -/
theorem submit_order_preserved_witness :
    (worker_run (fun _ => true)
      (submit_all { queue := [], voice := none } ["abc".toList, "hello".toList]) 2).2
      = ["abc".toList, "hello".toList] :=
  (submit_order_preserved ["abc".toList, "hello".toList] none (fun _ => true) 2
    (by decide) (by decide)).1

/-- **C5.** A raising speak call is caught and discarded: the iteration
dequeues the head, records the (failed) engine invocation, leaves every
other component of the worker state untouched, and the loop goes on — the
step's outcome is identical to that of a non-raising engine. -/
theorem speak_failure_swallowed (fails : List Char → Bool) (st : WorkerState)
    (txt : List Char) (rest : List (List Char))
    (hq : st.queue = txt :: rest) (_hf : speakCall fails txt = Except.error ()) :
    worker_step fails st = ({ st with queue := rest }, [txt]) ∧
    (worker_step fails st).1.voice = st.voice ∧
    worker_step fails st = worker_step (fun _ => false) st := by
  cases st with
  | mk q v =>
    have hq' : q = txt :: rest := hq
    subst hq'
    refine ⟨?_, ?_, ?_⟩
    · rw [worker_step_eq]
      simp
    · rw [worker_step_eq]
    · rw [worker_step_eq, worker_step_eq]

/-- Witness for `speak_failure_swallowed`: a single queued utterance whose
speak call raises is dequeued and counted, and the worker survives. -/
theorem speak_failure_swallowed_witness :
    worker_step (fun _ => true) { queue := ["abc".toList], voice := none }
      = ({ queue := [], voice := none }, ["abc".toList]) :=
  (speak_failure_swallowed (fun _ => true)
    { queue := ["abc".toList], voice := none } "abc".toList [] rfl rfl).1

/-- **C4 counterexample.** The claim says every startup error (service
initialization, voice enumeration/selection, rate/volume tuning) still lets
the worker loop run; but when `Dispatch("SAPI.SpVoice")` raises, `_run` has
no handler for it — the error propagates and the worker loop is never
entered. -/
theorem startup_dispatch_error_kills_worker :
    run_startup "natural".toList
      { dispatchFails := true, enumFails := false, descs := [], tuningFails := false }
      = Except.error () := rfl

/-- **C4 (amended).** Only the rate/volume tuning failures are ignored: when
neither `Dispatch` nor the voice enumeration raises, startup always reaches
the worker loop — the tuning outcome does not occur in the result — carrying
the scanned voice selection; and each worker-loop iteration is total, so
once entered the loop always has a next state and never terminates on its
own. -/
theorem startup_tuning_failure_ignored (m : List Char) (env : SapiEnv)
    (h1 : env.dispatchFails = false) (h2 : env.enumFails = false) :
    run_startup m env = Except.ok (select_voice m env.descs) ∧
    (run_startup m env).isOk = true ∧
    ∀ (fails : List Char → Bool) (st : WorkerState) (n : Nat),
      ∃ st' out, worker_run fails st n = (st', out) := by
  have hok : run_startup m env = Except.ok (select_voice m env.descs) := by
    unfold run_startup
    rw [h1, h2]
    simp
  exact ⟨hok, by rw [hok]; rfl, fun fails st n => ⟨_, _, rfl⟩⟩

/-- Witness for `startup_tuning_failure_ignored`: with failing tuning but
healthy dispatch and enumeration, startup still reaches the loop. -/
theorem startup_tuning_failure_ignored_witness :
    run_startup "natural".toList
      { dispatchFails := false, enumFails := false, descs := [], tuningFails := true }
      = Except.ok none :=
  (startup_tuning_failure_ignored "natural".toList
    { dispatchFails := false, enumFails := false, descs := [], tuningFails := true }
    rfl rfl).1

end PTTS
